import Mathlib

/-!
Verification of the core logic of `create-gaarf-wf` (src/gcp/create-gaarf-wf/src/index.ts):
the command execution wrapper `exec_cmd` (output capture, terminal scrollback suppression)
and the placeholder discovery / answer-caching resolver `getMacroValues` / `prompt`.

Text is shallowly embedded as `List Char`.  Filesystem contents, the spawned process's
behaviour, the terminal width, and the module-level flags (`is_diag`, `is_debug`) are
passed as explicit parameters.  The interactive-prompt collaborator (the `inquirer`
library) is external to the repository and is modelled from the spec's delegate contract.
-/

set_option autoImplicit false

namespace CreateGaarfWf

/-- Character text, the shallow embedding of JavaScript strings. -/
abbrev Chars := List Char

/-- Literal left brace character (`Char.ofNat 123`). -/
def lbrace : Char := Char.ofNat 123

/-- Literal right brace character (`Char.ofNat 125`). -/
def rbrace : Char := Char.ofNat 125

/-- Literal dollar character. -/
def dollar : Char := '$'

/-! ## Placeholder discovery (`getMacroValues`, lines 243-270 of index.ts) -/

/-- Embedding of `script_content.match(/FUNCTIONS/i)`: whether the text starts with the
marker literal, compared case-insensitively. -/
def startsWithFunctions (l : Chars) : Bool :=
  (l.take 9).map Char.toLower == "functions".toList

/-- Index of the first (case-insensitive) occurrence of the marker `FUNCTIONS` in the
text, or `none` when the marker does not occur; this is `fn_match?.index` in the source. -/
def matchIndexFunctions : Chars → Option Nat
  | [] => none
  | c :: rest =>
    if startsWithFunctions (c :: rest) then some 0
    else (matchIndexFunctions rest).map (fun i => i + 1)

/-- Embedding of the truncation step of `getMacroValues`:
`if (fn_match?.index) script_content = script_content.substring(0, fn_match.index)`.
The truthiness test means truncation happens only when the marker index exists
and is nonzero. -/
def truncateFunctions (l : Chars) : Chars :=
  match matchIndexFunctions l with
  | some i => if i ≠ 0 then l.take i else l
  | none => l

/-- Splits the text at the first right brace: `splitAtRBrace l = some (content, rest)`
when `l = content ++ rbrace :: rest` with `rbrace ∉ content`; `none` when `l` has no
right brace.  This is how the regex `[^}]+\}` consumes its match. -/
def splitAtRBrace : Chars → Option (Chars × Chars)
  | [] => none
  | c :: rest =>
    if c = rbrace then some ([], rest)
    else
      match splitAtRBrace rest with
      | none => none
      | some (content, rest') => some (c :: content, rest')

/-- Embedding of `script_content.matchAll(/(?<!\$)\{(?<m>[^}]+)\}/gi)`: a left-to-right,
non-overlapping scan collecting each nonempty brace-delimited token whose opening brace
is not immediately preceded by a literal dollar.  `prev` is the character just before the
current position.  `fuel` bounds the recursion depth; every step consumes at least one
character of `l`, so `l.length` fuel always suffices. -/
def scanMacrosAux : Nat → Option Char → Chars → List Chars
  | 0, _, _ => []
  | _, _, [] => []
  | fuel + 1, prev, c :: rest =>
    if c = lbrace ∧ prev ≠ some dollar then
      match splitAtRBrace rest with
      | some (content, rest') =>
        if content = [] then scanMacrosAux fuel (some c) rest
        else content :: scanMacrosAux fuel (some rbrace) rest'
      | none => scanMacrosAux fuel (some c) rest
    else scanMacrosAux fuel (some c) rest

/-- The token scan over a whole text (no preceding character at the start). -/
def scanText (l : Chars) : List Chars :=
  scanMacrosAux l.length none l

/-- Embedding of `macro[match.groups['macro']] = null`: JavaScript object keys collapse
duplicates, keeping first-insertion order. -/
def insertName (acc : List Chars) (n : Chars) : List Chars :=
  if n ∈ acc then acc else acc ++ [n]

/-- Placeholder names contributed by one file's text: truncate at the `FUNCTIONS`
marker (when its index is truthy), then scan for unescaped brace tokens. -/
def fileNames (content : Chars) : List Chars :=
  scanText (truncateFunctions content)

/-- Embedding of `file_path.endsWith('.sql')`. -/
def hasSqlExt (name : Chars) : Bool :=
  name.drop (name.length - 4) == ".sql".toList

/-- The discovery stage of `getMacroValues`: fold over the directory's files (given as
filename/content pairs, as produced by `readDir` plus `readFileSync`), keeping only
`.sql` files, accumulating the deduplicated Placeholder Set. -/
def discoverNames (files : List (Chars × Chars)) : List Chars :=
  files.foldl
    (fun acc f => if hasSqlExt f.1 then (fileNames f.2).foldl insertName acc else acc)
    []

/-! ## Command execution wrapper (`exec_cmd`, lines 51-125 of index.ts) -/

/-- Which of the spawned process's two captured streams a data chunk arrived on. -/
inductive StreamKind where
  | out
  | err
deriving DecidableEq

/-- Observable behaviour of the spawned process: its output chunks in arrival order and
the exit code passed to the `close` handler. -/
structure ProcessRun where
  chunks : List (StreamKind × Chars)
  exitCode : Int

/-- Caller options of `exec_cmd`; `realtime` is `Option` because the source distinguishes
an unset (`undefined`) flag from an explicit `false` when a spinner is present. -/
structure ExecOptions where
  realtime : Option Bool
  silent : Bool
  keep_output : Bool

/-- The Command Result: `{code, stderr, stdout}` resolved by the promise. -/
structure ExecResult where
  code : Int
  stderr : Chars
  stdout : Chars
deriving DecidableEq

/-- Observable side effects of `exec_cmd` on the terminal, the spinner and the debug
log, in the order the source performs them. -/
inductive TermAction where
  | spinnerStart
  | spinnerStop
  | echoOut (s : Chars)
  | echoErr (s : Chars)
  | consoleLog (s : Chars)
  | logAppend (s : Chars)
  | cursorTo (col : Nat)
  | moveCursor (dx dy : Int)
  | clearScreenDown
  | printStderr (s : Chars)
deriving DecidableEq

/-- Accumulation `stdout += chunk` / `stderr += chunk` of one stream's chunks. -/
def gather (k : StreamKind) : List (StreamKind × Chars) → Chars
  | [] => []
  | (k', d) :: rest => if k' = k then d ++ gather k rest else gather k rest

/-- Realtime echo of one arriving chunk to the corresponding real stream. -/
def echoAction (c : StreamKind × Chars) : TermAction :=
  match c.1 with
  | .out => .echoOut c.2
  | .err => .echoErr c.2

/-- Splitting of a text on a separator character, as `String.prototype.split` does:
the empty text yields one empty segment, and every separator starts a new segment. -/
def splitOnChar (sep : Char) : Chars → List Chars
  | [] => [[]]
  | c :: rest =>
    if c = sep then [] :: splitOnChar sep rest
    else
      match splitOnChar sep rest with
      | [] => [[c]]
      | l :: ls => (c :: l) :: ls

/-- Embedding of `line.split('\r'); arr[arr.length - 1]`: the text after the last
carriage return of the line (the whole line when it has none). -/
def lastSegment (l : Chars) : Chars :=
  (splitOnChar '\r' l).getLastD []

/-- Embedding of lines 90-96: split the accumulated stdout and stderr on the host line
terminator (`os.EOL`, modelled as a line feed), with an empty capture contributing no
lines at all, then normalize each line to its text after the last carriage return. -/
def capturedLines (stdout stderr : Chars) : List Chars :=
  ((if stdout = [] then [] else splitOnChar '\n' stdout) ++
    (if stderr = [] then [] else splitOnChar '\n' stderr)).map lastSegment

/-- Embedding of lines 98-100: the number of terminal rows consumed by the normalized
lines, `sum over lines of (line.length / terminal_width | 0) + 1`, folded left exactly
as the source's `map` plus `reduce`. -/
def row_count (lines : List Chars) (w : Nat) : Nat :=
  (lines.map (fun line => line.length / w + 1)).foldl (fun total count => total + count) 0

/-- Embedding of lines 87-105, the scrollback-erase step of the `close` handler: when at
least one line was captured, move the cursor to column 0, move it up `row_count - 1`
rows, and clear from the cursor to the end of the screen; otherwise do nothing. -/
def eraseActions (stdout stderr : Chars) (w : Nat) : List TermAction :=
  let lines := capturedLines stdout stderr
  if lines = [] then []
  else
    [TermAction.cursorTo 0,
     TermAction.moveCursor 0 (1 - (row_count lines w : Int)),
     TermAction.clearScreenDown]

/-- Embedding of lines 57-60: with a spinner present and no explicit `realtime` request,
realtime echoing is switched off. -/
def effective_realtime (spinner : Bool) (opts : ExecOptions) : Option Bool :=
  if spinner && opts.realtime.isNone then some false else opts.realtime

/-- Embedding of lines 61-63: the global `--diag` flag forces `keep_output` to true. -/
def effective_keep_output (is_diag : Bool) (opts : ExecOptions) : Bool :=
  if is_diag then true else opts.keep_output

/-- Embedding of `exec_cmd`.  The spawned process's behaviour (`run`), the terminal
width (`w`) and the module-level flags `is_diag` / `is_debug` are explicit parameters.
The function is total: the promise only ever resolves, in the `close` handler, with
`{code, stderr, stdout}`; there is no reject or throw path, so no `Except` is needed.
Timestamps of debug-log entries are outside the model; each `appendFileSync` is one
`logAppend` action carrying the data the entry is about. -/
def exec_cmd (cmd : Chars) (spinner : Bool) (opts : ExecOptions)
    (is_diag is_debug : Bool) (run : ProcessRun) (w : Nat) :
    ExecResult × List TermAction :=
  let rt := (effective_realtime spinner opts).getD false
  let ko := effective_keep_output is_diag opts
  let stdout := gather .out run.chunks
  let stderr := gather .err run.chunks
  let preActions :=
    (if spinner then [TermAction.spinnerStart] else []) ++
    (if is_debug then [TermAction.consoleLog cmd, TermAction.logAppend cmd] else []) ++
    (if rt then run.chunks.map echoAction else [])
  let closeActions :=
    (if spinner then [TermAction.spinnerStop] else []) ++
    (if !spinner && rt && !ko then eraseActions stdout stderr w else []) ++
    (if !stderr.isEmpty && !rt && !opts.silent && run.exitCode != 0 then
       [TermAction.printStderr stderr]
     else []) ++
    (if is_debug then
       [TermAction.logAppend cmd, TermAction.logAppend stdout, TermAction.logAppend stderr]
     else [])
  ({ code := run.exitCode, stderr := stderr, stdout := stdout }, preActions ++ closeActions)

/-! ## Macro resolution (`getMacroValues` / `prompt`, lines 243-302 of index.ts) -/

/-- Lookup in an association-list map (JavaScript object property read). -/
def findVal {α β : Type} [DecidableEq α] (k : α) : List (α × β) → Option β
  | [] => none
  | (k', v) :: rest => if k' = k then some v else findVal k rest

/-- A namespace's mapping from macro name to resolved value. -/
abbrev StrMap := List (Chars × String)

/-- The Answer Cache: namespace key to per-namespace mapping. -/
abbrev Cache := List (String × StrMap)

/-- Property write `answers[prefixKey] = m` on the cache object: replace the value of an
existing key, otherwise add the key. -/
def setCache (c : Cache) (prefixKey : String) (m : StrMap) : Cache :=
  match c with
  | [] => [(prefixKey, m)]
  | (k, v) :: rest =>
    if k = prefixKey then (k, m) :: rest else (k, v) :: setCache rest prefixKey m

/-- Modelled from the spec: the interactive-prompt collaborator (the `inquirer` library,
external to this repository).  Per the spec's delegate contract and cache short-circuit,
`inquirer.prompt(questions, provided)` asks (through the `oracle`) only the questions
whose name has no provided answer, and resolves with the provided answers together with
the newly collected ones.  Returns the merged mapping and the list of names asked. -/
def inquirerPrompt (oracle : Chars → String) (questions : List Chars) (provided : StrMap) :
    StrMap × List Chars :=
  let toAsk := questions.filter fun n => (findVal n provided).isNone
  (provided ++ toAsk.map fun n => (n, oracle n), toAsk)

/-- Result of one `getMacroValues` call: the cache after the call (the source mutates
`answers` in place), the returned mapping, the names the delegate actually prompted
for, and whether the informational notice was printed. -/
structure ResolveOut where
  cache : Cache
  result : StrMap
  prompted : List Chars
  noticed : Bool
deriving DecidableEq

/-- Embedding of the resolution stage of `getMacroValues` (lines 271-293) together with
`prompt` (lines 295-302): when the discovered Placeholder Set is empty, return an empty
mapping untouched; otherwise print the notice when the namespace is absent or some name
is missing from it, default the namespace to an empty mapping, and delegate all names
with the namespace's mapping as provided answers (`prompt` then `Object.assign`s the
delegate's answers back into `answers[prefix]` and returns them). -/
def getMacroValues (files : List (Chars × Chars)) (answers : Cache) (prefixKey : String)
    (oracle : Chars → String) : ResolveOut :=
  let names := discoverNames files
  if names = [] then ⟨answers, [], [], false⟩
  else
    let cur := (findVal prefixKey answers).getD []
    let missing := names.filter fun n => (findVal n cur).isNone
    let noticed := (findVal prefixKey answers).isNone || !missing.isEmpty
    let merged := (inquirerPrompt oracle names cur).1
    ⟨setCache answers prefixKey merged, merged, (inquirerPrompt oracle names cur).2, noticed⟩

/-! ## Helper lemmas -/

theorem foldl_add_eq_add_sum (l : List Nat) (init : Nat) :
    l.foldl (fun total count => total + count) init = init + l.sum := by
  induction l generalizing init with
  | nil => simp
  | cons x xs ih => simp [List.foldl_cons, ih, List.sum_cons]; omega

theorem findVal_setCache_ne {c : Cache} {p q : String} {m : StrMap} (hq : q ≠ p) :
    findVal q (setCache c p m) = findVal q c := by
  induction c with
  | nil => simp [setCache, findVal, Ne.symm hq]
  | cons kv rest ih =>
    obtain ⟨k, v⟩ := kv
    by_cases hk : k = p
    · subst hk
      simp [setCache, findVal, Ne.symm hq]
    · simp [setCache, hk, findVal, ih]

theorem findVal_append_left {β : Type} {a : List (Chars × β)} {k : Chars} {v : β}
    (h : findVal k a = some v) (b : List (Chars × β)) :
    findVal k (a ++ b) = some v := by
  induction a with
  | nil => simp [findVal] at h
  | cons kv rest ih =>
    obtain ⟨k', v'⟩ := kv
    by_cases hk : k' = k
    · simpa [findVal, hk] using h
    · simp [findVal, hk] at h ⊢
      exact ih h

theorem findVal_append_of_none {β : Type} {a : List (Chars × β)} {k : Chars}
    (h : findVal k a = none) (b : List (Chars × β)) :
    findVal k (a ++ b) = findVal k b := by
  induction a with
  | nil => simp
  | cons kv rest ih =>
    obtain ⟨k', v'⟩ := kv
    by_cases hk : k' = k
    · simp [findVal, hk] at h
    · simp [findVal, hk] at h ⊢
      exact ih h

theorem findVal_map_self {l : List Chars} {n : Chars} (hn : n ∈ l)
    (oracle : Chars → String) :
    findVal n (l.map fun m => (m, oracle m)) = some (oracle n) := by
  induction l with
  | nil => simp at hn
  | cons x xs ih =>
    by_cases hx : x = n
    · subst hx; simp [findVal]
    · rcases List.mem_cons.mp hn with h | h
      · exact absurd h.symm hx
      · simp [findVal, hx, ih h]

theorem getLastD_append_singleton {α : Type} (s : List α) (b d : α) :
    (s ++ [b]).getLastD d = b := by
  induction s generalizing d with
  | nil => rfl
  | cons x xs ih =>
    rw [List.cons_append, List.getLastD_cons]
    exact ih x

theorem splitOnChar_ne_nil (sep : Char) (l : Chars) : splitOnChar sep l ≠ [] := by
  cases l with
  | nil => simp [splitOnChar]
  | cons c rest =>
    rw [splitOnChar]
    by_cases hc : c = sep
    · simp [hc]
    · rw [if_neg hc]
      cases h : splitOnChar sep rest <;> simp

theorem splitOnChar_of_not_mem {sep : Char} {l : Chars} (h : sep ∉ l) :
    splitOnChar sep l = [l] := by
  induction l with
  | nil => rfl
  | cons c rest ih =>
    have hc : c ≠ sep := fun hc => h (hc ▸ List.mem_cons_self c rest)
    have hrest : sep ∉ rest := fun hr => h (List.mem_cons_of_mem c hr)
    rw [splitOnChar, if_neg hc, ih hrest]

theorem splitOnChar_append_sep (sep : Char) (a b : Chars) :
    splitOnChar sep (a ++ sep :: b) = splitOnChar sep a ++ splitOnChar sep b := by
  induction a with
  | nil => simp [splitOnChar]
  | cons c a ih =>
    by_cases hc : c = sep
    · subst hc
      rw [List.cons_append, splitOnChar, if_pos rfl, ih]
      rw [splitOnChar, if_pos rfl, List.cons_append]
    · obtain ⟨hd, tl, hsp⟩ := List.exists_cons_of_ne_nil (splitOnChar_ne_nil sep a)
      rw [List.cons_append, splitOnChar, if_neg hc, ih, hsp, List.cons_append]
      rw [splitOnChar, if_neg hc, hsp]
      rfl

/-! ## Claim theorems -/

/-- C3.  The command runner always resolves to a Result; for every caller options,
flags, spinner state and process behaviour, the Result's `code` is the external
command's exit code and its `stderr` / `stdout` are the captured streams — the
embedding is a total function with no failure path, so a failed command surfaces
solely through a non-zero `code` and the captured `stderr`. -/
theorem exec_cmd_always_resolves (cmd : Chars) (spinner : Bool) (opts : ExecOptions)
    (is_diag is_debug : Bool) (run : ProcessRun) (w : Nat) :
    (exec_cmd cmd spinner opts is_diag is_debug run w).1 =
      { code := run.exitCode
        stderr := gather .err run.chunks
        stdout := gather .out run.chunks } := rfl

/-- C7.  For every list of normalized lines and positive terminal width, the row count
computed by the source's `map` plus `reduce` equals the sum over the lines of
`floor(len(line) / terminalWidth) + 1` (natural-number division is the floor). -/
theorem row_count_eq_sum (lines : List Chars) (w : Nat) (_hw : 0 < w) :
    row_count lines w = (lines.map (fun line => line.length / w + 1)).sum := by
  simp [row_count, foldl_add_eq_add_sum]

/-- Witness for C7 at the spec's example width 80 and a line of length 85. -/
theorem row_count_eq_sum_witness :
    0 < 80 ∧
      row_count [List.replicate 85 'a'] 80 =
        ([List.replicate 85 'a'].map (fun line => line.length / 80 + 1)).sum :=
  ⟨by decide, row_count_eq_sum [List.replicate 85 'a'] 80 (by decide)⟩

theorem row_count_example_single : row_count [List.replicate 85 'a'] 80 = 2 := by decide

theorem row_count_example_pair :
    row_count [List.replicate 10 'a', List.replicate 90 'b'] 80 = 3 := by decide

/-- C1.  Evaluation of the code at the failing input: for a `.sql` file whose text
starts with the marker (`"FUNCTIONS {b}"`), `fn_match?.index` is `0`, which is falsy,
so the source skips truncation and the name `b` — occurring only after the marker —
is discovered, contradicting the claim (and the source's own comment that a contained
`FUNCTIONS` block must be cut off before the macro search). -/
theorem functionsMarker_at_zero_is_scanned :
    matchIndexFunctions "FUNCTIONS \x7bb\x7d".toList = some 0 ∧
      truncateFunctions "FUNCTIONS \x7bb\x7d".toList = "FUNCTIONS \x7bb\x7d".toList ∧
      "b".toList ∈ discoverNames [("q.sql".toList, "FUNCTIONS \x7bb\x7d".toList)] := by
  refine ⟨by decide, by decide, by decide⟩

theorem functionsMarker_positive_index_truncates :
    discoverNames [("q.sql".toList, "\x7ba\x7d\nFUNCTIONS\n\x7bb\x7d".toList)] =
      ["a".toList] := by decide

/-- C5 counterexample.  With realtime echoing enabled, no progress indicator,
`keep_output` false and a command that produced no output at all, the `lines.length > 0`
guard fails and the scrollback-erase step is not executed (no cursor movement, no
clearing) — the claim that it runs even with empty output is false on the code. -/
theorem exec_cmd_empty_output_no_erase_cex :
    TermAction.clearScreenDown ∉
        (exec_cmd "cmd".toList false ⟨some true, false, false⟩ false false ⟨[], 0⟩ 80).2 ∧
      TermAction.cursorTo 0 ∉
        (exec_cmd "cmd".toList false ⟨some true, false, false⟩ false false ⟨[], 0⟩ 80).2 := by
  refine ⟨by decide, by decide⟩

/-- C8.  When the discovered Placeholder Set of the directory is empty, resolution
returns an empty mapping, prompts for nothing, prints no notice, and leaves the answer
cache exactly as it was (no entry is created for the namespace). -/
theorem getMacroValues_empty_noop (files : List (Chars × Chars)) (answers : Cache)
    (prefixKey : String) (oracle : Chars → String)
    (h : discoverNames files = []) :
    getMacroValues files answers prefixKey oracle = ⟨answers, [], [], false⟩ := by
  simp [getMacroValues, h]

/-- Witness for C8: a `.sql` file containing no placeholder tokens. -/
theorem getMacroValues_empty_noop_witness :
    discoverNames [("q.sql".toList, "select 1".toList)] = [] ∧
      getMacroValues [("q.sql".toList, "select 1".toList)]
          [("ns", [("x".toList, "1")])] "ns" (fun _ => "2") =
        ⟨[("ns", [("x".toList, "1")])], [], [], false⟩ :=
  ⟨by decide,
    getMacroValues_empty_noop [("q.sql".toList, "select 1".toList)]
      [("ns", [("x".toList, "1")])] "ns" (fun _ => "2") (by decide)⟩

/-- C10.  Resolution mutates at most the namespace entry it was given: every other key
of the answer cache maps to the same value after the call as before it. -/
theorem getMacroValues_frame (files : List (Chars × Chars)) (answers : Cache)
    (prefixKey : String) (oracle : Chars → String) (q : String) (hq : q ≠ prefixKey) :
    findVal q (getMacroValues files answers prefixKey oracle).cache =
      findVal q answers := by
  by_cases h : discoverNames files = []
  · simp [getMacroValues, h]
  · simp [getMacroValues, h, findVal_setCache_ne hq]

/-- Witness for C10: a cache with a second namespace `other`, untouched by resolving
into `ns`. -/
theorem getMacroValues_frame_witness :
    "other" ≠ "ns" ∧
      findVal "other"
          (getMacroValues [("q.sql".toList, "select \x7bx\x7d".toList)]
            [("other", [("z".toList, "9")]), ("ns", [])] "ns" (fun _ => "2")).cache =
        findVal "other" [("other", [("z".toList, "9")]), ("ns", [])] :=
  ⟨by decide,
    getMacroValues_frame [("q.sql".toList, "select \x7bx\x7d".toList)]
      [("other", [("z".toList, "9")]), ("ns", [])] "ns" (fun _ => "2") "other"
      (by decide)⟩

/-- C2.  Cache short-circuit: for every answer cache, namespace and non-empty discovered
Placeholder Set, resolution prompts exactly for the names absent from the cache's
mapping for the namespace, the returned mapping keeps every previously cached entry
unchanged, and each newly prompted name maps to the delegate's answer. -/
theorem getMacroValues_cache_short_circuit (files : List (Chars × Chars))
    (answers : Cache) (prefixKey : String) (oracle : Chars → String)
    (hne : discoverNames files ≠ []) :
    let cur := (findVal prefixKey answers).getD []
    let r := getMacroValues files answers prefixKey oracle
    r.prompted = (discoverNames files).filter (fun n => (findVal n cur).isNone) ∧
      (∀ k v, findVal k cur = some v → findVal k r.result = some v) ∧
      (∀ n, n ∈ discoverNames files → findVal n cur = none →
        findVal n r.result = some (oracle n)) := by
  intro cur r
  have hres : r.result =
      cur ++ ((discoverNames files).filter (fun n => (findVal n cur).isNone)).map
        (fun n => (n, oracle n)) := by
    show (getMacroValues files answers prefixKey oracle).result = _
    rw [getMacroValues, if_neg hne]
    rfl
  have hpr : r.prompted =
      (discoverNames files).filter (fun n => (findVal n cur).isNone) := by
    show (getMacroValues files answers prefixKey oracle).prompted = _
    rw [getMacroValues, if_neg hne]
    rfl
  refine ⟨hpr, ?_, ?_⟩
  · intro k v hk
    rw [hres]
    exact findVal_append_left hk _
  · intro n hn hmiss
    rw [hres, findVal_append_of_none hmiss]
    exact findVal_map_self (List.mem_filter.mpr ⟨hn, by simp [hmiss]⟩) oracle

/-- Witness for C2 at the spec's example: cache `{ns: {x: "1"}}`, placeholders
`{x, y}`; only `y` is prompted and the mapping keeps `x = "1"` and adds `y`. -/
theorem getMacroValues_cache_short_circuit_witness :
    discoverNames [("q.sql".toList, "select \x7bx\x7d where a=\x7by\x7d".toList)] ≠ [] ∧
      (let cur := (findVal "ns" [("ns", [("x".toList, "1")])]).getD []
       let r := getMacroValues
         [("q.sql".toList, "select \x7bx\x7d where a=\x7by\x7d".toList)]
         [("ns", [("x".toList, "1")])] "ns" (fun _ => "2")
       r.prompted =
           (discoverNames [("q.sql".toList, "select \x7bx\x7d where a=\x7by\x7d".toList)]).filter
             (fun n => (findVal n cur).isNone) ∧
         (∀ k v, findVal k cur = some v → findVal k r.result = some v) ∧
         (∀ n,
           n ∈ discoverNames [("q.sql".toList, "select \x7bx\x7d where a=\x7by\x7d".toList)] →
             findVal n cur = none → findVal n r.result = some ((fun _ => "2") n))) :=
  ⟨by decide,
    getMacroValues_cache_short_circuit
      [("q.sql".toList, "select \x7bx\x7d where a=\x7by\x7d".toList)]
      [("ns", [("x".toList, "1")])] "ns" (fun _ => "2") (by decide)⟩

theorem cache_short_circuit_example :
    (getMacroValues [("q.sql".toList, "select \x7bx\x7d where a=\x7by\x7d".toList)]
        [("ns", [("x".toList, "1")])] "ns" (fun _ => "2")).prompted = ["y".toList] ∧
      (getMacroValues [("q.sql".toList, "select \x7bx\x7d where a=\x7by\x7d".toList)]
          [("ns", [("x".toList, "1")])] "ns" (fun _ => "2")).result =
        [("x".toList, "1"), ("y".toList, "2")] := by
  refine ⟨by decide, by decide⟩

/-- C6.  During scrollback suppression every captured line is normalized — before the
row count is computed `capturedLines` maps each raw line through `lastSegment` — by
keeping only the text after the last carriage-return character the line contains: when
the line is `a ++ CR :: b` with no carriage return in `b`, the normalized line is `b`. -/
theorem lastSegment_after_last_cr (l a b : Chars) (hl : l = a ++ '\r' :: b)
    (hb : '\r' ∉ b) : lastSegment l = b := by
  subst hl
  rw [lastSegment, splitOnChar_append_sep, splitOnChar_of_not_mem hb]
  exact getLastD_append_singleton _ b []

/-- Witness for C6 at the spec's example line `"progress 50%\rprogress 100%"`. -/
theorem lastSegment_after_last_cr_witness :
    ("progress 50%\rprogress 100%".toList =
        "progress 50%".toList ++ '\r' :: "progress 100%".toList) ∧
      '\r' ∉ "progress 100%".toList ∧
      lastSegment "progress 50%\rprogress 100%".toList = "progress 100%".toList :=
  ⟨by decide, by decide,
    lastSegment_after_last_cr "progress 50%\rprogress 100%".toList
      "progress 50%".toList "progress 100%".toList (by decide) (by decide)⟩

theorem lastSegment_no_cr {l : Chars} (h : '\r' ∉ l) : lastSegment l = l := by
  rw [lastSegment, splitOnChar_of_not_mem h]
  rfl

/-- C9.  When the global diagnostic flag is set, `keep_output` is forced to true
whatever the caller requested, so the scrollback-erase step is never executed: no
cursor positioning and no clearing appears among the side effects of any call. -/
theorem exec_cmd_diag_no_erase (cmd : Chars) (spinner : Bool) (opts : ExecOptions)
    (is_debug : Bool) (run : ProcessRun) (w : Nat) :
    effective_keep_output true opts = true ∧
      TermAction.cursorTo 0 ∉ (exec_cmd cmd spinner opts true is_debug run w).2 ∧
      TermAction.clearScreenDown ∉ (exec_cmd cmd spinner opts true is_debug run w).2 := by
  refine ⟨rfl, ?_, ?_⟩ <;>
  · intro hmem
    simp only [exec_cmd, effective_keep_output, if_pos, Bool.not_true, Bool.and_false,
      List.mem_append] at hmem
    rcases hmem with ((h | h) | h) | (((h | h) | h) | h)
    · split at h <;> simp_all
    · split at h <;> simp_all
    · split at h
      · obtain ⟨⟨k, d⟩, -, hc⟩ := List.mem_map.mp h
        cases k <;> simp [echoAction] at hc
      · simp at h
    · split at h <;> simp_all
    · simp at h
    · split at h <;> simp_all
    · split at h <;> simp_all

/-- Witness for C9: a caller explicitly requesting `keep_output := false` under the
diagnostic flag still sees no scrollback erasure. -/
theorem exec_cmd_diag_no_erase_witness :
    TermAction.clearScreenDown ∉
      (exec_cmd "cmd".toList false ⟨some true, false, false⟩ true false
        ⟨[(StreamKind.out, "hi".toList)], 0⟩ 80).2 :=
  (exec_cmd_diag_no_erase "cmd".toList false ⟨some true, false, false⟩ false
    ⟨[(StreamKind.out, "hi".toList)], 0⟩ 80).2.2

/-- C5 (amended).  With realtime echoing enabled, no progress indicator, `keep_output`
false and the diagnostic flag unset, the scrollback-erase step (cursor to column 0,
up `rowCount - 1` rows, clear to end of screen) runs after the process closes whenever
the command produced any output; when both captured streams are empty the
`lines.length > 0` guard skips it. -/
theorem exec_cmd_erase_when_output (cmd : Chars) (silent is_debug : Bool)
    (run : ProcessRun) (w : Nat)
    (h : gather .out run.chunks ≠ [] ∨ gather .err run.chunks ≠ []) :
    let acts := (exec_cmd cmd false ⟨some true, silent, false⟩ false is_debug run w).2
    TermAction.cursorTo 0 ∈ acts ∧
      TermAction.moveCursor 0
          (1 - (row_count
            (capturedLines (gather .out run.chunks) (gather .err run.chunks)) w : Int)) ∈
        acts ∧
      TermAction.clearScreenDown ∈ acts := by
  intro acts
  have hlines : capturedLines (gather .out run.chunks) (gather .err run.chunks) ≠ [] := by
    rw [capturedLines]
    intro hc
    rw [List.map_eq_nil_iff] at hc
    rcases h with h | h
    · rw [if_neg h] at hc
      exact splitOnChar_ne_nil '\n' _ (List.append_eq_nil.mp hc).1
    · rw [if_neg h] at hc
      exact splitOnChar_ne_nil '\n' _ (List.append_eq_nil.mp hc).2
  have herase : eraseActions (gather .out run.chunks) (gather .err run.chunks) w =
      [TermAction.cursorTo 0,
       TermAction.moveCursor 0
         (1 - (row_count
           (capturedLines (gather .out run.chunks) (gather .err run.chunks)) w : Int)),
       TermAction.clearScreenDown] := by
    simp only [eraseActions]
    rw [if_neg hlines]
  refine ⟨?_, ?_, ?_⟩ <;>
  · simp only [acts, exec_cmd, effective_realtime, effective_keep_output, herase,
      List.mem_append]
    simp

/-- Witness for C5 (amended): a command that echoed a single stdout chunk gets its
output erased. -/
theorem exec_cmd_erase_when_output_witness :
    (gather .out [(StreamKind.out, "hi".toList)] ≠ [] ∨
        gather .err [(StreamKind.out, "hi".toList)] ≠ []) ∧
      (let acts := (exec_cmd "cmd".toList false ⟨some true, false, false⟩ false false
          ⟨[(StreamKind.out, "hi".toList)], 0⟩ 80).2
       TermAction.cursorTo 0 ∈ acts ∧
         TermAction.moveCursor 0
             (1 - (row_count (capturedLines
               (gather .out [(StreamKind.out, "hi".toList)])
               (gather .err [(StreamKind.out, "hi".toList)])) 80 : Int)) ∈ acts ∧
         TermAction.clearScreenDown ∈ acts) :=
  ⟨by decide,
    exec_cmd_erase_when_output "cmd".toList false false
      ⟨[(StreamKind.out, "hi".toList)], 0⟩ 80 (by decide)⟩

theorem splitAtRBrace_eq {l content rest' : Chars}
    (h : splitAtRBrace l = some (content, rest')) :
    l = content ++ rbrace :: rest' ∧ rbrace ∉ content := by
  induction l generalizing content rest' with
  | nil => simp [splitAtRBrace] at h
  | cons c rest ih =>
    rw [splitAtRBrace] at h
    by_cases hc : c = rbrace
    · rw [if_pos hc] at h
      simp only [Option.some.injEq, Prod.mk.injEq] at h
      obtain ⟨hcon, hrest⟩ := h
      subst hc
      constructor
      · rw [← hcon, ← hrest]
        rfl
      · rw [← hcon]
        simp
    · rw [if_neg hc] at h
      cases hsp : splitAtRBrace rest with
      | none => rw [hsp] at h; simp at h
      | some p =>
        obtain ⟨con', rest''⟩ := p
        rw [hsp] at h
        simp only [Option.some.injEq, Prod.mk.injEq] at h
        obtain ⟨hcon, hrest⟩ := h
        obtain ⟨ihe, ihm⟩ := ih hsp
        subst hcon hrest
        constructor
        · rw [List.cons_append, ihe]
        · intro hm
          rcases List.mem_cons.mp hm with he | hm'
          · exact hc he.symm
          · exact ihm hm'

theorem rbrace_ne_dollar : rbrace ≠ dollar := by decide

theorem getLast?_cons_chain {c : Char} {a : Chars}
    (h1 : a = [] → some c ≠ some dollar) (h2 : a.getLast? ≠ some dollar) :
    (c :: a).getLast? ≠ some dollar := by
  cases a with
  | nil => simpa using fun he => (h1 rfl) (by rw [he])
  | cons x xs =>
    rw [List.getLast?_cons_cons]
    exact h2

/-- Soundness of the token scan: every collected name stems from an occurrence of
`lbrace :: name ++ [rbrace]` in the scanned text whose opening brace is not immediately
preceded by a literal dollar (the preceding text is empty or does not end in `$`),
with `name` nonempty and free of right braces — the lookbehind `(?<!\$)` of the regex. -/
theorem scanMacrosAux_sound (fuel : Nat) (prev : Option Char) (l n : Chars)
    (hmem : n ∈ scanMacrosAux fuel prev l) :
    ∃ a b, l = a ++ lbrace :: (n ++ rbrace :: b) ∧
      (a = [] → prev ≠ some dollar) ∧
      a.getLast? ≠ some dollar ∧
      n ≠ [] ∧ rbrace ∉ n := by
  induction fuel generalizing prev l with
  | zero => simp [scanMacrosAux] at hmem
  | succ fuel ih =>
    cases l with
    | nil => simp [scanMacrosAux] at hmem
    | cons c rest =>
      have hskip : n ∈ scanMacrosAux fuel (some c) rest →
          ∃ a b, c :: rest = a ++ lbrace :: (n ++ rbrace :: b) ∧
            (a = [] → prev ≠ some dollar) ∧
            a.getLast? ≠ some dollar ∧ n ≠ [] ∧ rbrace ∉ n := by
        intro hm
        obtain ⟨a', b', heq', h1', h2', h3', h4'⟩ := ih (some c) rest hm
        refine ⟨c :: a', b', by rw [List.cons_append, heq'], by simp, ?_, h3', h4'⟩
        exact getLast?_cons_chain h1' h2'
      rw [scanMacrosAux] at hmem
      by_cases hc : c = lbrace ∧ prev ≠ some dollar
      · rw [if_pos hc] at hmem
        cases hsp : splitAtRBrace rest with
        | none =>
          rw [hsp] at hmem
          exact hskip hmem
        | some p =>
          obtain ⟨content, rest1⟩ := p
          rw [hsp] at hmem
          have hmem0 : n ∈ (if content = [] then scanMacrosAux fuel (some c) rest
              else content :: scanMacrosAux fuel (some rbrace) rest1) := hmem
          by_cases hcon : content = []
          · rw [if_pos hcon] at hmem0
            exact hskip hmem0
          · rw [if_neg hcon] at hmem0
            obtain ⟨heq, hnotin⟩ := splitAtRBrace_eq hsp
            rcases List.mem_cons.mp hmem0 with rfl | hmem1
            · exact ⟨[], rest1, by simp [heq, hc.1], fun _ => hc.2, by simp, hcon, hnotin⟩
            · obtain ⟨a', b', heq', h1', h2', h3', h4'⟩ := ih (some rbrace) rest1 hmem1
              refine ⟨c :: (content ++ rbrace :: a'), b', ?_, by simp, ?_, h3', h4'⟩
              · rw [heq, heq']
                simp
              · have htail : (rbrace :: a').getLast? ≠ some dollar :=
                  getLast?_cons_chain (fun _ => by simp [rbrace_ne_dollar]) h2'
                have hsplit : c :: (content ++ rbrace :: a') =
                    (c :: content) ++ (rbrace :: a') := by simp
                rw [hsplit, List.getLast?_append_of_ne_nil (c :: content) (by simp)]
                exact htail
      · rw [if_neg hc] at hmem
        exact hskip hmem

/-- C4.  A brace token immediately preceded by a literal dollar is never inserted into
the Placeholder Set: every name the scan collects has an occurrence in the text whose
opening brace is not preceded by `$` (the text before it is empty or ends in another
character), is nonempty, and contains no right brace. -/
theorem scanText_escaped_excluded (t n : Chars) (hmem : n ∈ scanText t) :
    ∃ a b, t = a ++ lbrace :: (n ++ rbrace :: b) ∧
      a.getLast? ≠ some dollar ∧ n ≠ [] ∧ rbrace ∉ n := by
  obtain ⟨a, b, heq, -, h2, h3, h4⟩ := scanMacrosAux_sound t.length none t n hmem
  exact ⟨a, b, heq, h2, h3, h4⟩

/-- Witness for C4 at the spec's example text: in `"${foo} {bar}"` the unescaped token
`bar` is discovered (with an unescaped occurrence) and the discovered set is exactly
`{bar}` — `foo` never appears. -/
theorem scanText_escaped_excluded_witness :
    "bar".toList ∈ scanText "$\x7bfoo\x7d \x7bbar\x7d".toList ∧
      (∃ a b, "$\x7bfoo\x7d \x7bbar\x7d".toList =
          a ++ lbrace :: ("bar".toList ++ rbrace :: b) ∧
        a.getLast? ≠ some dollar ∧ "bar".toList ≠ [] ∧ rbrace ∉ "bar".toList) ∧
      scanText "$\x7bfoo\x7d \x7bbar\x7d".toList = ["bar".toList] :=
  ⟨by decide,
    scanText_escaped_excluded "$\x7bfoo\x7d \x7bbar\x7d".toList "bar".toList (by decide),
    by decide⟩

end CreateGaarfWf
